import Mathlib

/-!
Verification of the LIS (longest increasing subsequence) visualizer core of
mini-vue-preview: the trace engine, the step navigator, the hover manager
and the playback tick, shallowly embedded in Lean.

JS arrays of numbers become `List Int` (values) and `List Nat` (index lists);
out-of-range reads (`xs[i]` yielding `undefined` in JS) are modelled with
`List.getD _ _ 0`, and every use in the development stays in bounds.
Unbounded `while` loops of the source are modelled with an explicit fuel
argument large enough for the loop's own termination bound; the development
proves the bound (see the walk-stability theorems), so the fuel never runs out
on reachable data.
-/

namespace LisViz

/-- Reading the input array at an index: the JS expression `indexes[i]`. -/
def val (xs : List Int) (i : Nat) : Int := xs.getD i 0

/-- StepAction from `types`: the tagged union `init | skip | append | replace`. -/
inductive StepAction where
  | init : StepAction
  | skip (index : Nat) : StepAction
  | append (index : Nat) : StepAction
  | replace (position : Nat) (index : Nat) : StepAction
deriving DecidableEq, Repr

/-- One step snapshot of the trace (`VisualizationStep` in `types`). -/
structure VisualizationStep where
  stepIndex : Nat
  currentIndex : Int
  currentValue : Int
  action : StepAction
  sequence : List Nat
  predecessors : List Int
deriving DecidableEq, Repr

/-- The full trace (`TraceResult` in `types`). -/
structure TraceResult where
  input : List Int
  steps : List VisualizationStep
  result : List Nat
deriving DecidableEq, Repr

/-- The `while (low < high)` binary-search loop of `findInsertPosition`,
with fuel: each iteration shrinks `high - low`, so `sequence.length` fuel
always suffices. -/
def findInsertPositionAux (sequence : List Nat) (indexes : List Int) (target : Int) :
    Nat → Nat → Nat → Nat
  | 0, low, _ => low
  | fuel + 1, low, high =>
    if low < high then
      let middle := (low + high) / 2
      if val indexes (sequence.getD middle 0) < target then
        findInsertPositionAux sequence indexes target fuel (middle + 1) high
      else
        findInsertPositionAux sequence indexes target fuel low middle
    else low

/-- Lower-bound binary search over the values stored at the `sequence` indices:
source function `findInsertPosition`. -/
def findInsertPosition (sequence : List Nat) (indexes : List Int) (target : Int) : Nat :=
  findInsertPositionAux sequence indexes target sequence.length 0 (sequence.length - 1)

/-- Source function `determineAction`: decides `skip`/`append`/`replace` for the
element at `currentIndex` and returns the updated `sequence` and `predecessors`
(the source mutates them in place; the embedding returns the new copies). -/
def determineAction (indexes : List Int) (currentIndex : Nat) (currentValue : Int)
    (sequence : List Nat) (predecessors : List Int) :
    StepAction × List Nat × List Int :=
  if currentValue = -1 then
    (StepAction.skip currentIndex, sequence, predecessors)
  else
    match sequence.getLast? with
    | none =>
        (StepAction.append currentIndex, sequence ++ [currentIndex],
          predecessors.set currentIndex (-1))
    | some lastSequenceIndex =>
        if val indexes lastSequenceIndex < currentValue then
          (StepAction.append currentIndex, sequence ++ [currentIndex],
            predecessors.set currentIndex ((lastSequenceIndex : Nat) : Int))
        else
          let insertPosition := findInsertPosition sequence indexes currentValue
          if currentValue < val indexes (sequence.getD insertPosition 0) then
            (StepAction.replace insertPosition currentIndex,
              sequence.set insertPosition currentIndex,
              predecessors.set currentIndex
                (if 0 < insertPosition then ((sequence.getD (insertPosition - 1) 0 : Nat) : Int)
                 else -1))
          else
            (StepAction.skip currentIndex, sequence, predecessors)

/-- The initial predecessors array: `Array.from({length}).fill(-1)`. -/
def initPreds (xs : List Int) : List Int := List.replicate xs.length (-1)

/-- The `(sequence, predecessors)` state of the algorithm after the loop of
`traceLongestIncreasingSubsequence` has processed the first `n` elements. -/
def stateAt (xs : List Int) : Nat → List Nat × List Int
  | 0 => ([], initPreds xs)
  | n + 1 => (determineAction xs n (val xs n) (stateAt xs n).1 (stateAt xs n).2).2

/-- The snapshot recorded for input position `k` (step `k + 1` of the trace). -/
def mkStep (xs : List Int) (k : Nat) : VisualizationStep :=
  { stepIndex := k + 1
    currentIndex := (k : Int)
    currentValue := val xs k
    action := (determineAction xs k (val xs k) (stateAt xs k).1 (stateAt xs k).2).1
    sequence := (stateAt xs (k + 1)).1
    predecessors := (stateAt xs (k + 1)).2 }

/-- The recording loop of `traceLongestIncreasingSubsequence`: `remaining` counts
the elements still to process (starting at `indexes.length`), `currentIndex` is
the loop counter. -/
def traceSteps (indexes : List Int) :
    Nat → Nat → List Nat → List Int → List VisualizationStep
  | 0, _, _, _ => []
  | remaining + 1, currentIndex, sequence, predecessors =>
    let r := determineAction indexes currentIndex (val indexes currentIndex)
        sequence predecessors
    { stepIndex := currentIndex + 1
      currentIndex := (currentIndex : Int)
      currentValue := val indexes currentIndex
      action := r.1
      sequence := r.2.1
      predecessors := r.2.2 } ::
      traceSteps indexes remaining (currentIndex + 1) r.2.1 r.2.2

/-- The `while (tailIndex >= 0)` backtracking loop shared by
`traceSequenceResult` and `refreshHoverState`: push the current index, move to
its predecessor.  `fuel` bounds the iteration count; the predecessor-decrease
invariant proved below shows `start + 1` iterations always suffice on traces. -/
def chainWalk (predecessors : List Int) : Int → Nat → List Nat
  | _, 0 => []
  | current, fuel + 1 =>
    if 0 ≤ current then
      current.toNat :: chainWalk predecessors (predecessors.getD current.toNat 0) fuel
    else []

/-- Source function `traceSequenceResult`: walk the predecessor chain from the
tail of `sequence` and reverse.  The unbounded `while` loop is run with
`predecessors.length + 1` fuel, which the termination theorem shows is enough. -/
def traceSequenceResult (sequence : List Nat) (predecessors : List Int) : List Nat :=
  let tailIndex : Int :=
    match sequence.getLast? with
    | some i => (i : Int)
    | none => -1
  (chainWalk predecessors tailIndex (predecessors.length + 1)).reverse

/-- The step-0 `Init` snapshot pushed before the loop. -/
def initStep (xs : List Int) : VisualizationStep :=
  { stepIndex := 0
    currentIndex := -1
    currentValue := -1
    action := StepAction.init
    sequence := []
    predecessors := initPreds xs }

/-- Source function `traceLongestIncreasingSubsequence`. -/
def traceLongestIncreasingSubsequence (indexes : List Int) : TraceResult :=
  let steps := initStep indexes ::
    traceSteps indexes indexes.length 0 [] (initPreds indexes)
  let final := stateAt indexes indexes.length
  { input := indexes
    steps := steps
    result := traceSequenceResult final.1 final.2 }

/-! ### Step navigator (`navigator.ts`) -/

/-- The navigator: the recorded trace plus the single mutable cursor that the
source keeps in the `currentStepIndex` closure variable. -/
structure Navigator where
  trace : TraceResult
  cursor : Nat
deriving DecidableEq, Repr

/-- Read-only state projection returned by `getState`. -/
structure NavigatorState where
  currentStep : Nat
  totalSteps : Nat
  canGoBack : Bool
  canGoForward : Bool
deriving DecidableEq, Repr

/-- Source `createStepNavigator`: cursor initialized to 0. -/
def createStepNavigator (trace : TraceResult) : Navigator :=
  { trace := trace, cursor := 0 }

/-- Source `getState`. -/
def Navigator.getState (nav : Navigator) : NavigatorState :=
  { currentStep := nav.cursor
    totalSteps := nav.trace.steps.length
    canGoBack := decide (0 < nav.cursor)
    canGoForward := decide (nav.cursor < nav.trace.steps.length - 1) }

/-- Source `getCurrentStep`: `trace.steps[currentStepIndex]`. -/
def Navigator.getCurrentStep (nav : Navigator) : Option VisualizationStep :=
  nav.trace.steps.get? nav.cursor

/-- Source `next`: advance if not at the last step, else no-op returning none.
The embedding returns the updated navigator together with the return value. -/
def Navigator.next (nav : Navigator) : Navigator × Option VisualizationStep :=
  if nav.cursor < nav.trace.steps.length - 1 then
    let nav2 : Navigator := { nav with cursor := nav.cursor + 1 }
    (nav2, nav2.getCurrentStep)
  else (nav, none)

/-- Source `previous`. -/
def Navigator.prev (nav : Navigator) : Navigator × Option VisualizationStep :=
  if 0 < nav.cursor then
    let nav2 : Navigator := { nav with cursor := nav.cursor - 1 }
    (nav2, nav2.getCurrentStep)
  else (nav, none)

/-- Source `goTo`: jump when `0 <= stepIndex < trace.steps.length`, else no-op. -/
def Navigator.goTo (nav : Navigator) (stepIndex : Int) : Navigator × Option VisualizationStep :=
  if 0 ≤ stepIndex ∧ stepIndex < (nav.trace.steps.length : Int) then
    let nav2 : Navigator := { nav with cursor := stepIndex.toNat }
    (nav2, nav2.getCurrentStep)
  else (nav, none)

/-- Source `reset`: cursor back to 0. -/
def Navigator.reset (nav : Navigator) : Navigator :=
  { nav with cursor := 0 }

/-- `k` successive `next()` calls (dropping the returned snapshots). -/
def iterNext : Nat → Navigator → Navigator
  | 0, nav => nav
  | k + 1, nav => iterNext k (nav.next).1

/-! ### Hover manager (`controllers/hover-manager.ts`) -/

/-- The hover-related slice of the state manager's reactive state. -/
structure HoverState where
  hoveredChainIndexes : List Nat
  hoveredChainInfo : Option Int
  isSequenceHovered : Bool
  isPredecessorsHovered : Bool
deriving DecidableEq, Repr

/-- The initial values `createStateManager` gives the hover state. -/
def initialHoverState : HoverState :=
  { hoveredChainIndexes := []
    hoveredChainInfo := none
    isSequenceHovered := false
    isPredecessorsHovered := false }

/-- Source `handleChainHover`: record the literal chain and its position. -/
def handleChainHover (st : HoverState) (indexes : List Nat) (chainIndex : Int) : HoverState :=
  { st with hoveredChainInfo := some chainIndex, hoveredChainIndexes := indexes }

/-- Source `handleChainLeave`. -/
def handleChainLeave (st : HoverState) : HoverState :=
  { st with hoveredChainInfo := none, hoveredChainIndexes := [] }

/-- The chain rebuilt by `refreshHoverState`: its `while (current >= 0)` loop
`unshift`s each index, which equals the pushed walk reversed. -/
def buildChain (predecessors : List Int) (start : Int) : List Nat :=
  (chainWalk predecessors start (predecessors.length + 1)).reverse

/-- Source `refreshHoverState`, as a function of the current snapshot. -/
def refreshHoverState (currentStep : Option VisualizationStep) (st : HoverState) : HoverState :=
  match st.hoveredChainInfo with
  | none => st
  | some chainIndex =>
    match currentStep with
    | none => { st with hoveredChainIndexes := [], hoveredChainInfo := none }
    | some step =>
      if chainIndex < 0 ∨ (step.sequence.length : Int) ≤ chainIndex then
        { st with hoveredChainIndexes := [], hoveredChainInfo := none }
      else
        { st with hoveredChainIndexes :=
            buildChain step.predecessors ((step.sequence.getD chainIndex.toNat 0 : Nat) : Int) }

/-- One navigator cursor move, as dispatched by the orchestration layer. -/
inductive NavMove where
  | next : NavMove
  | prev : NavMove
  | goTo (k : Int) : NavMove
  | reset : NavMove
deriving DecidableEq, Repr

/-- Apply a cursor move to the navigator (dropping the returned snapshot). -/
def applyMove (nav : Navigator) (m : NavMove) : Navigator :=
  match m with
  | NavMove.next => (nav.next).1
  | NavMove.prev => (nav.prev).1
  | NavMove.goTo k => (nav.goTo k).1
  | NavMove.reset => nav.reset

/-- One orchestration step: move the cursor, then `refreshHoverState()`. -/
def stepSystem (p : Navigator × HoverState) (m : NavMove) : Navigator × HoverState :=
  let nav2 := applyMove p.1 m
  (nav2, refreshHoverState nav2.getCurrentStep p.2)

/-- A sequence of moves, each followed by `refreshHoverState()`. -/
def runMoves (p : Navigator × HoverState) : List NavMove → Navigator × HoverState
  | [] => p
  | m :: ms => runMoves (stepSystem p m) ms

/-! ### Playback controller (`controllers/playback-controller.ts`) -/

/-- The playback controller's mutable state: the `isPlaying` flag and whether
the interval timer handle is set. -/
structure PlaybackState where
  isPlaying : Bool
  timerActive : Bool
deriving DecidableEq, Repr

/-- One timer tick of `start`'s `setInterval` callback: call `navigator.next()`;
on a snapshot invoke `onStepUpdate` (the returned flag), otherwise `stop()`
(clear the timer, set `isPlaying` false).  -/
def playbackTick (nav : Navigator) (pb : PlaybackState) :
    Navigator × PlaybackState × Bool :=
  let r := nav.next
  match r.2 with
  | some _ => (r.1, pb, true)
  | none => (r.1, { isPlaying := false, timerActive := false }, false)

/-! ### Specification predicates -/

/-- No duplicate non-sentinel values: the precondition the trace engine is
entitled to assume (upstream deduplication). -/
def NoDupNonSentinel (xs : List Int) : Prop :=
  ∀ i, i < xs.length → ∀ j, j < xs.length → i ≠ j → val xs i ≠ -1 →
    val xs i ≠ val xs j

instance (xs : List Int) : Decidable (NoDupNonSentinel xs) := by
  unfold NoDupNonSentinel; infer_instance

/-- `l` is a strictly increasing subsequence (by index and by value) of the
first `n` positions of `xs`, over non-sentinel values only. -/
def IncSubseq (xs : List Int) (n : Nat) (l : List Nat) : Prop :=
  l.Pairwise (fun a b => a < b) ∧
  (∀ j ∈ l, j < n ∧ val xs j ≠ -1) ∧
  l.Pairwise (fun a b => val xs a < val xs b)

/-- Every predecessor entry is `-1` or a strictly smaller index. -/
def PredEntriesBounded (preds : List Int) : Prop :=
  ∀ i, i < preds.length → -1 ≤ preds.getD i 0 ∧ preds.getD i 0 < (i : Int)

/-- Every predecessor walk started at index `i` is finished after at most
`i + 1` iterations: giving the loop more fuel changes nothing. -/
def WalkStable (preds : List Int) : Prop :=
  ∀ i, i < preds.length → ∀ fuel, i + 1 ≤ fuel →
    chainWalk preds ((i : Nat) : Int) fuel = chainWalk preds ((i : Nat) : Int) (i + 1)

/-- Predecessor entries are bounded and, when set, point at a strictly smaller
non-sentinel value: the structural part of the loop invariant. -/
def PredsOk (xs : List Int) (preds : List Int) : Prop :=
  preds.length = xs.length ∧
  ∀ i, i < preds.length →
    (-1 ≤ preds.getD i 0 ∧ preds.getD i 0 < (i : Int)) ∧
    (0 ≤ preds.getD i 0 →
      val xs (preds.getD i 0).toNat < val xs i ∧
      val xs (preds.getD i 0).toNat ≠ -1 ∧ val xs i ≠ -1)

/-- The `sequence` state is made of processed non-sentinel indices holding
strictly increasing values. -/
def SeqOk (xs : List Int) (n : Nat) (seq : List Nat) : Prop :=
  (∀ k, k < seq.length → seq.getD k 0 < n ∧ val xs (seq.getD k 0) ≠ -1) ∧
  (∀ a b, a < b → b < seq.length → val xs (seq.getD a 0) < val xs (seq.getD b 0))

/-- `Chain xs preds i c`: `c` is the full predecessor chain ending at `i`, in
increasing order (the reverse of the walk order). -/
inductive Chain (xs : List Int) (preds : List Int) : Nat → List Nat → Prop where
  | nil (i : Nat) : preds.getD i 0 = -1 → Chain xs preds i [i]
  | cons (i j : Nat) (c : List Nat) :
      preds.getD i 0 = ((j : Nat) : Int) → Chain xs preds j c → Chain xs preds i (c ++ [i])

/-- Every `sequence` slot `p` carries a predecessor chain of length `p + 1`. -/
def ChainsOk (xs : List Int) (preds : List Int) (seq : List Nat) : Prop :=
  ∀ p, p < seq.length → ∃ c, Chain xs preds (seq.getD p 0) c ∧ c.length = p + 1

/-- Greedy optimality: every nonempty increasing subsequence of the processed
prefix is no longer than `sequence`, and the `sequence` tail of its length is
value-minimal. -/
def TailsMin (xs : List Int) (n : Nat) (seq : List Nat) : Prop :=
  ∀ l, IncSubseq xs n l → l ≠ [] →
    l.length ≤ seq.length ∧
    val xs (seq.getD (l.length - 1) 0) ≤ val xs (l.getLast?.getD 0)

/-- The full loop invariant after processing `n` elements. -/
def Inv (xs : List Int) (n : Nat) (seq : List Nat) (preds : List Int) : Prop :=
  PredsOk xs preds ∧ SeqOk xs n seq ∧ ChainsOk xs preds seq ∧ TailsMin xs n seq

/-- Post-state of the hover manager after at least one refresh: either the
hover is still live at position `p` and shows the chain rebuilt from the
current snapshot, or it has been cleared entirely. -/
def HoverPost (nav : Navigator) (p : Int) (st : HoverState) : Prop :=
  (st.hoveredChainInfo = some p ∧
    ∃ step, nav.getCurrentStep = some step ∧ 0 ≤ p ∧ p < (step.sequence.length : Int) ∧
      st.hoveredChainIndexes =
        buildChain step.predecessors ((step.sequence.getD p.toNat 0 : Nat) : Int)) ∨
  (st.hoveredChainInfo = none ∧ st.hoveredChainIndexes = [])

/-! ### List access helpers -/

theorem getD_set_self {α : Type} (l : List α) (i : Nat) (a d : α) (h : i < l.length) :
    (l.set i a).getD i d = a := by
  rw [List.getD_eq_getElem _ _ (by simpa using h)]
  exact List.getElem_set_self (by simpa using h)

theorem getD_set_ne {α : Type} (l : List α) (i j : Nat) (a d : α) (hij : i ≠ j) :
    (l.set i a).getD j d = l.getD j d := by
  by_cases hj : j < l.length
  · rw [List.getD_eq_getElem _ _ (by simpa using hj), List.getD_eq_getElem _ _ hj]
    exact List.getElem_set_ne hij (by simpa using hj)
  · rw [List.getD_eq_default _ _ (by simpa using Nat.le_of_not_lt hj),
      List.getD_eq_default _ _ (Nat.le_of_not_lt hj)]

theorem getD_concat_length {α : Type} (l : List α) (a d : α) :
    (l ++ [a]).getD l.length d = a := by
  rw [List.getD_append_right _ _ _ _ (Nat.le_refl _)]
  simp

theorem getLast?_eq_getD {α : Type} (l : List α) (d : α) (h : l ≠ []) :
    l.getLast? = some (l.getD (l.length - 1) d) := by
  have hlen : l.length - 1 < l.length :=
    Nat.sub_lt (List.length_pos.mpr h) Nat.one_pos
  rw [List.getLast?_eq_getElem?, List.getElem?_eq_getElem hlen,
    List.getD_eq_getElem _ _ hlen]

theorem getD_mem {α : Type} (l : List α) (i : Nat) (d : α) (h : i < l.length) :
    l.getD i d ∈ l := by
  rw [List.getD_eq_getElem _ _ h]
  exact List.getElem_mem h

/-! ### Predecessor-walk lemmas -/

theorem chainWalk_neg (preds : List Int) (t : Int) (fuel : Nat) (ht : t < 0) :
    chainWalk preds t fuel = [] := by
  cases fuel with
  | zero => rfl
  | succ f => simp [chainWalk, Int.not_le.mpr ht]

theorem chainWalk_succ_nonneg (preds : List Int) (k : Nat) (f : Nat) :
    chainWalk preds ((k : Nat) : Int) (f + 1) =
      k :: chainWalk preds (preds.getD k 0) f := by
  have h0 : 0 ≤ ((k : Nat) : Int) := Int.natCast_nonneg k
  simp only [chainWalk, if_pos h0]
  norm_num

/-- C4's consequence, proved from the bound alone: the predecessor walk from
index `i` is insensitive to fuel beyond `i + 1` iterations. -/
theorem chainWalk_stable_of_bounded (preds : List Int) (hb : PredEntriesBounded preds) :
    WalkStable preds := by
  intro i
  induction i using Nat.strong_induction_on with
  | _ i ih =>
    intro hi fuel hfuel
    obtain ⟨f, rfl⟩ : ∃ f, fuel = f + 1 := ⟨fuel - 1, by omega⟩
    rw [chainWalk_succ_nonneg, chainWalk_succ_nonneg]
    congr 1
    have hbi := hb i hi
    by_cases hneg : preds.getD i 0 < 0
    · have h1 : preds.getD i 0 = -1 := by omega
      rw [h1, chainWalk_neg _ _ _ (by norm_num), chainWalk_neg _ _ _ (by norm_num)]
    · push_neg at hneg
      have hji : (preds.getD i 0).toNat < i := by omega
      have hofnat : preds.getD i 0 = ((preds.getD i 0).toNat : Int) := by
        exact (Int.toNat_of_nonneg hneg).symm
      rw [hofnat]
      rw [ih _ hji (Nat.lt_trans hji hi) f (by omega),
        ih _ hji (Nat.lt_trans hji hi) i (by omega)]

theorem chain_props (xs preds : List Int) (hp : PredsOk xs preds) :
    ∀ k c, Chain xs preds k c → k < preds.length →
      c ≠ [] ∧ c.getLast? = some k ∧
      (∀ m ∈ c, m ≤ k ∧ val xs m ≤ val xs k) ∧
      (∀ m ∈ c, m ≠ k → val xs m ≠ -1) ∧
      c.Pairwise (fun a b => a < b) ∧
      c.Pairwise (fun a b => val xs a < val xs b) := by
  intro k c hch
  induction hch with
  | nil i hget =>
    intro hi
    refine ⟨by simp, by simp, ?_, ?_, by simp, by simp⟩
    · intro m hm
      have hm2 : m = i := by simpa using hm
      subst hm2
      exact ⟨Nat.le_refl _, le_refl _⟩
    · intro m hm hne
      have hm2 : m = i := by simpa using hm
      exact absurd hm2 hne
  | cons i j c hget hc ih =>
    intro hi
    have hpi := (hp.2 i hi)
    have hj : (j : Int) < (i : Int) := by
      have := hpi.1.2
      rwa [hget] at this
    have hjnat : j < i := by exact_mod_cast hj
    have hvals := hpi.2 (by rw [hget]; exact Int.natCast_nonneg j)
    rw [hget] at hvals
    have hvals2 : val xs j < val xs i ∧ val xs j ≠ -1 ∧ val xs i ≠ -1 := hvals
    obtain ⟨hvji, hvj, hvi⟩ := hvals2
    obtain ⟨hne, hlast, hmem, hsent, hpw1, hpw2⟩ := ih (Nat.lt_trans hjnat hi)
    have hmemj : ∀ m ∈ c, m ≤ j ∧ val xs m ≤ val xs j := hmem
    refine ⟨by simp, by rw [List.getLast?_concat], ?_, ?_, ?_, ?_⟩
    · intro m hm
      rcases List.mem_append.mp hm with hm | hm
      · have := hmemj m hm
        exact ⟨Nat.le_of_lt (Nat.lt_of_le_of_lt this.1 hjnat),
          le_of_lt (lt_of_le_of_lt this.2 hvji)⟩
      · simp at hm
        simp [hm, Nat.le_refl]
    · intro m hm hmne
      rcases List.mem_append.mp hm with hm | hm
      · by_cases hmj : m = j
        · rw [hmj]; exact hvj
        · exact hsent m hm hmj
      · simp at hm
        exact absurd hm hmne
    · rw [List.pairwise_append]
      refine ⟨hpw1, by simp, ?_⟩
      intro a ha b hb
      simp at hb
      rw [hb]
      exact Nat.lt_of_le_of_lt (hmemj a ha).1 hjnat
    · rw [List.pairwise_append]
      refine ⟨hpw2, by simp, ?_⟩
      intro a ha b hb
      simp at hb
      rw [hb]
      exact lt_of_le_of_lt (hmemj a ha).2 hvji

theorem chain_unique (xs preds : List Int) :
    ∀ k c1, Chain xs preds k c1 → ∀ c2, Chain xs preds k c2 → c1 = c2 := by
  intro k c1 h1
  induction h1 with
  | nil i hget =>
    intro c2 h2
    cases h2 with
    | nil => rfl
    | cons _ j c hget2 hc2 =>
      rw [hget] at hget2
      exact absurd hget2 (by simp)
  | cons i j c hget hc ih =>
    intro c2 h2
    cases h2 with
    | nil _ hget2 =>
      rw [hget] at hget2
      exact absurd hget2 (by simp)
    | cons _ j2 c2t hget2 hc2 =>
      rw [hget] at hget2
      have : j = j2 := Int.natCast_inj.mp hget2
      subst this
      rw [ih c2t hc2]

theorem chain_set_of_ne (xs preds : List Int) (i : Nat) (x : Int) :
    ∀ k c, Chain xs preds k c → (∀ m ∈ c, m ≠ i) → Chain xs (preds.set i x) k c := by
  intro k c h hne
  induction h with
  | nil k0 hget =>
    apply Chain.nil
    rw [getD_set_ne _ _ _ _ _ (fun hik => (hne k0 (by simp)) hik.symm)]
    exact hget
  | cons k0 j c hget hc ih =>
    apply Chain.cons k0 j
    · rw [getD_set_ne _ _ _ _ _ (fun hik => (hne k0 (by simp)) hik.symm)]
      exact hget
    · exact ih (fun m hm => hne m (List.mem_append_left _ hm))

/-- The walk computes the (reversed) chain. -/
theorem chainWalk_eq_of_chain (xs preds : List Int) (hp : PredsOk xs preds) :
    ∀ k c, Chain xs preds k c → k < preds.length → ∀ fuel, k + 1 ≤ fuel →
      chainWalk preds ((k : Nat) : Int) fuel = c.reverse := by
  intro k c hch
  induction hch with
  | nil i hget =>
    intro hi fuel hfuel
    obtain ⟨f, rfl⟩ : ∃ f, fuel = f + 1 := ⟨fuel - 1, by omega⟩
    rw [chainWalk_succ_nonneg, hget, chainWalk_neg _ _ _ (by norm_num)]
    simp
  | cons i j c hget hc ih =>
    intro hi fuel hfuel
    have hj : (j : Int) < (i : Int) := by
      have := ((hp.2 i hi)).1.2
      rwa [hget] at this
    have hjnat : j < i := by exact_mod_cast hj
    obtain ⟨f, rfl⟩ : ∃ f, fuel = f + 1 := ⟨fuel - 1, by omega⟩
    rw [chainWalk_succ_nonneg, hget, ih (Nat.lt_trans hjnat hi) f (by omega)]
    simp

/-! ### Binary search correctness -/

theorem findInsertPositionAux_spec (seq : List Nat) (xs : List Int) (target : Int) :
    ∀ fuel low high, high - low ≤ fuel → low ≤ high → high < seq.length →
      (∀ a b, a < b → b < seq.length → val xs (seq.getD a 0) < val xs (seq.getD b 0)) →
      (∀ k, k < low → val xs (seq.getD k 0) < target) →
      target ≤ val xs (seq.getD high 0) →
      low ≤ findInsertPositionAux seq xs target fuel low high ∧
      findInsertPositionAux seq xs target fuel low high ≤ high ∧
      (∀ k, k < findInsertPositionAux seq xs target fuel low high →
        val xs (seq.getD k 0) < target) ∧
      target ≤ val xs (seq.getD (findInsertPositionAux seq xs target fuel low high) 0) := by
  intro fuel
  induction fuel with
  | zero =>
    intro low high hf hlh hhs hsort hlow hhigh
    have heq : low = high := by omega
    subst heq
    exact ⟨Nat.le_refl _, Nat.le_refl _, hlow, hhigh⟩
  | succ f ih =>
    intro low high hf hlh hhs hsort hlow hhigh
    by_cases hlt : low < high
    · have hm1 : low ≤ (low + high) / 2 := by omega
      have hm2 : (low + high) / 2 < high := by omega
      by_cases hv : val xs (seq.getD ((low + high) / 2) 0) < target
      · have hunf : findInsertPositionAux seq xs target (f + 1) low high =
            findInsertPositionAux seq xs target f ((low + high) / 2 + 1) high := by
          simp only [findInsertPositionAux, if_pos hlt, if_pos hv]
        rw [hunf]
        have hlow2 : ∀ k, k < (low + high) / 2 + 1 → val xs (seq.getD k 0) < target := by
          intro k hk
          rcases Nat.lt_or_ge k ((low + high) / 2) with hkm | hkm
          · exact lt_trans (hsort k ((low + high) / 2) hkm (Nat.lt_trans hm2 hhs)) hv
          · have heqk : k = (low + high) / 2 := by omega
            rw [heqk]
            exact hv
        have hres := ih ((low + high) / 2 + 1) high (by omega) (by omega) hhs hsort hlow2 hhigh
        exact ⟨Nat.le_trans (by omega) hres.1, hres.2.1, hres.2.2⟩
      · have hunf : findInsertPositionAux seq xs target (f + 1) low high =
            findInsertPositionAux seq xs target f low ((low + high) / 2) := by
          simp only [findInsertPositionAux, if_pos hlt, if_neg hv]
        rw [hunf]
        have hres := ih low ((low + high) / 2) (by omega) (by omega)
          (Nat.lt_trans hm2 hhs) hsort hlow (Int.not_lt.mp hv)
        exact ⟨hres.1, Nat.le_trans hres.2.1 (Nat.le_of_lt hm2), hres.2.2⟩
    · have hunf : findInsertPositionAux seq xs target (f + 1) low high = low := by
        simp only [findInsertPositionAux, if_neg hlt]
      rw [hunf]
      have heq : low = high := by omega
      subst heq
      exact ⟨Nat.le_refl _, Nat.le_refl _, hlow, hhigh⟩

theorem findInsertPosition_spec (seq : List Nat) (xs : List Int) (target : Int)
    (hne : seq ≠ [])
    (hsort : ∀ a b, a < b → b < seq.length → val xs (seq.getD a 0) < val xs (seq.getD b 0))
    (hhigh : target ≤ val xs (seq.getD (seq.length - 1) 0)) :
    findInsertPosition seq xs target < seq.length ∧
    (∀ k, k < findInsertPosition seq xs target → val xs (seq.getD k 0) < target) ∧
    target ≤ val xs (seq.getD (findInsertPosition seq xs target) 0) := by
  have hlen : 0 < seq.length := List.length_pos.mpr hne
  have hres := findInsertPositionAux_spec seq xs target seq.length 0 (seq.length - 1)
    (by omega) (by omega) (by omega) hsort (by intro k hk; omega) hhigh
  unfold findInsertPosition
  exact ⟨by omega, hres.2.2.1, hres.2.2.2⟩

/-! ### Increasing-subsequence utilities -/

theorem incsubseq_drop_sentinel (xs : List Int) (n : Nat) (l : List Nat)
    (hv : val xs n = -1) (h : IncSubseq xs (n + 1) l) : IncSubseq xs n l := by
  obtain ⟨h1, h2, h3⟩ := h
  refine ⟨h1, ?_, h3⟩
  intro j hj
  have hj2 := h2 j hj
  refine ⟨?_, hj2.2⟩
  rcases Nat.lt_or_ge j n with h | h
  · exact h
  · have : j = n := by omega
    subst this
    exact absurd hv hj2.2

theorem incsubseq_drop_not_mem (xs : List Int) (n : Nat) (l : List Nat)
    (h : IncSubseq xs (n + 1) l) (hn : n ∉ l) : IncSubseq xs n l := by
  obtain ⟨h1, h2, h3⟩ := h
  refine ⟨h1, ?_, h3⟩
  intro j hj
  have hj2 := h2 j hj
  refine ⟨?_, hj2.2⟩
  have : j ≠ n := fun he => hn (he ▸ hj)
  omega

theorem incsubseq_concat_parts (xs : List Int) (m : Nat) (l : List Nat) (x : Nat)
    (h : IncSubseq xs m (l ++ [x])) :
    IncSubseq xs m l ∧ (∀ a ∈ l, a < x ∧ val xs a < val xs x) ∧
      x < m ∧ val xs x ≠ -1 := by
  obtain ⟨h1, h2, h3⟩ := h
  rw [List.pairwise_append] at h1 h3
  refine ⟨⟨h1.1, ?_, h3.1⟩, ?_, ?_⟩
  · intro j hj
    exact h2 j (List.mem_append_left _ hj)
  · intro a ha
    exact ⟨h1.2.2 a ha x (by simp), h3.2.2 a ha x (by simp)⟩
  · exact h2 x (by simp)

theorem incsubseq_mem_last (xs : List Int) (n : Nat) (l : List Nat) (x : Nat)
    (h : IncSubseq xs (n + 1) (l ++ [x])) (hn : n ∈ l ++ [x]) : x = n := by
  obtain ⟨hl, hparts, hx, _⟩ := incsubseq_concat_parts xs (n + 1) l x h
  rcases List.mem_append.mp hn with hm | hm
  · have h1 := (hparts n hm).1
    omega
  · simp at hm
    omega

/-! ### Invariant preservation: skip on sentinel -/

theorem inv_skip_sentinel (xs : List Int) (n : Nat) (seq : List Nat) (preds : List Int)
    (hv : val xs n = -1) (hinv : Inv xs n seq preds) : Inv xs (n + 1) seq preds := by
  obtain ⟨hP, hS, hC, hT⟩ := hinv
  refine ⟨hP, ⟨?_, hS.2⟩, hC, ?_⟩
  · intro k hk
    have := hS.1 k hk
    exact ⟨by omega, this.2⟩
  · intro l hl hlne
    exact hT l (incsubseq_drop_sentinel xs n l hv hl) hlne

/-! ### Invariant preservation: append to the empty sequence -/

theorem inv_append_empty (xs : List Int) (n : Nat) (preds : List Int)
    (hn : n < xs.length) (hv : val xs n ≠ -1)
    (hinv : Inv xs n [] preds) :
    Inv xs (n + 1) ([] ++ [n]) (preds.set n (-1)) := by
  obtain ⟨hP, hS, hC, hT⟩ := hinv
  have hplen : preds.length = xs.length := hP.1
  have hnp : n < preds.length := by omega
  have hall : ∀ j, j < n → val xs j = -1 := by
    intro j hj
    by_contra hne
    have hinc : IncSubseq xs n [j] := by
      refine ⟨by simp, ?_, by simp⟩
      intro a ha
      simp at ha
      subst ha
      exact ⟨hj, hne⟩
    have := (hT [j] hinc (by simp)).1
    simp at this
  constructor
  · -- PredsOk
    refine ⟨by simpa using hplen, ?_⟩
    intro i hi
    simp only [List.length_set] at hi
    by_cases hin : i = n
    · subst hin
      rw [getD_set_self _ _ _ _ hnp]
      refine ⟨⟨by norm_num, by omega⟩, ?_⟩
      intro h0
      norm_num at h0
    · rw [getD_set_ne _ _ _ _ _ (fun he => hin he.symm)]
      exact hP.2 i hi
  refine ⟨?_, ?_, ?_⟩
  · -- SeqOk
    refine ⟨?_, ?_⟩
    · intro k hk
      simp at hk
      subst hk
      simp only [List.nil_append, List.getD_cons_zero]
      exact ⟨by omega, hv⟩
    · intro a b hab hb
      simp at hb
      omega
  · -- ChainsOk
    intro p hp
    simp at hp
    subst hp
    refine ⟨[n], ?_, by simp⟩
    simp only [List.nil_append, List.getD_cons_zero]
    exact Chain.nil n (getD_set_self _ _ _ _ hnp)
  · -- TailsMin
    intro l hl hlne
    have hmem : ∀ j ∈ l, j = n := by
      intro j hj
      have hj2 := hl.2.1 j hj
      rcases Nat.lt_or_ge j n with h | h
      · exact absurd (hall j h) hj2.2
      · omega
    have hln : l = [n] := by
      cases l with
      | nil => exact absurd rfl hlne
      | cons a t =>
        have ha : a = n := hmem a (by simp)
        cases t with
        | nil => rw [ha]
        | cons b t2 =>
          have hb : b = n := hmem b (by simp)
          have := (List.pairwise_cons.mp hl.1).1 b (by simp)
          rw [ha, hb] at this
          exact absurd this (lt_irrefl n)
    rw [hln]
    simp

theorem getLast_getD_mem {α : Type} (l : List α) (d : α) (h : l ≠ []) :
    (l.getLast?.getD d) ∈ l := by
  rw [getLast?_eq_getD l d h]
  exact getD_mem _ _ _ (Nat.sub_lt (List.length_pos.mpr h) Nat.one_pos)

theorem seq_last_facts (xs : List Int) (n : Nat) (seq : List Nat)
    (hS : SeqOk xs n seq) (hne : seq ≠ []) :
    seq.getLast? = some (seq.getD (seq.length - 1) 0) ∧
    seq.getD (seq.length - 1) 0 < n ∧
    val xs (seq.getD (seq.length - 1) 0) ≠ -1 ∧
    (∀ k, k < seq.length →
      val xs (seq.getD k 0) ≤ val xs (seq.getD (seq.length - 1) 0)) := by
  have hlen : 0 < seq.length := List.length_pos.mpr hne
  have hlast := hS.1 (seq.length - 1) (by omega)
  refine ⟨getLast?_eq_getD seq 0 hne, hlast.1, hlast.2, ?_⟩
  intro k hk
  rcases Nat.lt_or_ge k (seq.length - 1) with h | h
  · exact le_of_lt (hS.2 k (seq.length - 1) h (by omega))
  · have : k = seq.length - 1 := by omega
    rw [this]

/-! ### Invariant preservation: append to a nonempty sequence -/

theorem inv_append (xs : List Int) (n : Nat) (seq : List Nat) (preds : List Int)
    (hn : n < xs.length) (hv : val xs n ≠ -1) (hne : seq ≠ [])
    (hgt : val xs (seq.getD (seq.length - 1) 0) < val xs n)
    (hinv : Inv xs n seq preds) :
    Inv xs (n + 1) (seq ++ [n])
      (preds.set n ((seq.getD (seq.length - 1) 0 : Nat) : Int)) := by
  obtain ⟨hP, hS, hC, hT⟩ := hinv
  have hplen : preds.length = xs.length := hP.1
  have hnp : n < preds.length := by omega
  have hlen : 0 < seq.length := List.length_pos.mpr hne
  obtain ⟨hlastq, hlastn, hlastval, hmax⟩ := seq_last_facts xs n seq hS hne
  have hmaxn : ∀ k, k < seq.length → val xs (seq.getD k 0) < val xs n :=
    fun k hk => lt_of_le_of_lt (hmax k hk) hgt
  constructor
  · -- PredsOk
    refine ⟨by simpa using hplen, ?_⟩
    intro i hi
    simp only [List.length_set] at hi
    by_cases hin : i = n
    · subst hin
      rw [getD_set_self _ _ _ _ hnp]
      refine ⟨⟨le_trans (by norm_num) (Int.natCast_nonneg _), ?_⟩, ?_⟩
      · omega
      · intro h0
        exact ⟨hmaxn (seq.length - 1) (by omega), hlastval, hv⟩
    · rw [getD_set_ne _ _ _ _ _ (fun he => hin he.symm)]
      exact hP.2 i hi
  refine ⟨?_, ?_, ?_⟩
  · -- SeqOk
    refine ⟨?_, ?_⟩
    · intro k hk
      simp only [List.length_append, List.length_singleton] at hk
      rcases Nat.lt_or_ge k seq.length with h | h
      · rw [List.getD_append _ _ _ _ h]
        have := hS.1 k h
        exact ⟨by omega, this.2⟩
      · have hkl : k = seq.length := by omega
        rw [hkl, getD_concat_length]
        exact ⟨by omega, hv⟩
    · intro a b hab hb
      simp only [List.length_append, List.length_singleton] at hb
      rcases Nat.lt_or_ge b seq.length with h | h
      · rw [List.getD_append _ _ _ _ h, List.getD_append _ _ _ _ (Nat.lt_trans hab h)]
        exact hS.2 a b hab h
      · have hbl : b = seq.length := by omega
        rw [hbl, getD_concat_length, List.getD_append _ _ _ _ (by omega)]
        exact hmaxn a (by omega)
  · -- ChainsOk
    intro p hp
    simp only [List.length_append, List.length_singleton] at hp
    rcases Nat.lt_or_ge p seq.length with h | h
    · obtain ⟨c, hc, hclen⟩ := hC p h
      have hpn : seq.getD p 0 < n := (hS.1 p h).1
      have helts := (chain_props xs preds hP _ _ hc (by omega)).2.2.1
      refine ⟨c, ?_, hclen⟩
      rw [List.getD_append _ _ _ _ h]
      exact chain_set_of_ne xs preds n _ _ c hc
        (fun m hm => by have := (helts m hm).1; omega)
    · have hpl : p = seq.length := by omega
      subst hpl
      obtain ⟨c, hc, hclen⟩ := hC (seq.length - 1) (by omega)
      have helts := (chain_props xs preds hP _ _ hc (by omega)).2.2.1
      refine ⟨c ++ [n], ?_, by simp [hclen]; omega⟩
      rw [getD_concat_length]
      refine Chain.cons n (seq.getD (seq.length - 1) 0) c
        (getD_set_self _ _ _ _ hnp) ?_
      exact chain_set_of_ne xs preds n _ _ c hc
        (fun m hm => by have := (helts m hm).1; omega)
  · -- TailsMin
    intro l hl hlne
    simp only [List.length_append, List.length_singleton]
    by_cases hmem : n ∈ l
    · rcases List.eq_nil_or_concat l with rfl | ⟨l2, x, hlx⟩
      · exact absurd rfl hlne
      · rw [List.concat_eq_append] at hlx
        subst hlx
        have hx : x = n := incsubseq_mem_last xs n l2 x hl hmem
        rw [hx] at hl
        rw [hx]
        obtain ⟨hl2, hbound, _, _⟩ := incsubseq_concat_parts xs (n + 1) l2 n hl
        have hlastval2 : (l2 ++ [n]).getLast?.getD 0 = n := by
          rw [List.getLast?_concat]
          rfl
        rw [hlastval2]
        by_cases hl2e : l2 = []
        · subst hl2e
          simp only [List.nil_append, List.length_singleton]
          refine ⟨by omega, ?_⟩
          rw [List.getD_append _ _ _ _ (by omega)]
          exact le_of_lt (hmaxn 0 (by omega))
        · have hl2n : IncSubseq xs n l2 :=
            ⟨hl2.1, fun j hj => ⟨(hbound j hj).1, (hl2.2.1 j hj).2⟩, hl2.2.2⟩
          obtain ⟨hm1, hm2⟩ := hT l2 hl2n hl2e
          have htail : val xs (l2.getLast?.getD 0) < val xs n :=
            (hbound _ (getLast_getD_mem l2 0 hl2e)).2
          have hmlen : l2.length ≥ 1 := by
            have := List.length_pos.mpr hl2e
            omega
          rw [List.length_append, List.length_singleton]
          refine ⟨by omega, ?_⟩
          have hidx : l2.length + 1 - 1 = l2.length := by omega
          rw [hidx]
          rcases Nat.lt_or_ge l2.length seq.length with h | h
          · rw [List.getD_append _ _ _ _ h]
            exact le_of_lt (hmaxn _ h)
          · have : l2.length = seq.length := by omega
            rw [this, getD_concat_length]
    · have hln : IncSubseq xs n l := incsubseq_drop_not_mem xs n l hl hmem
      obtain ⟨hm1, hm2⟩ := hT l hln hlne
      have hl1 : 1 ≤ l.length := by
        have := List.length_pos.mpr hlne
        omega
      refine ⟨by omega, ?_⟩
      rw [List.getD_append _ _ _ _ (by omega)]
      exact hm2

/-! ### Invariant preservation: replace -/

theorem inv_replace (xs : List Int) (n : Nat) (seq : List Nat) (preds : List Int)
    (hn : n < xs.length) (hv : val xs n ≠ -1) (hne : seq ≠ [])
    (hngt : val xs n ≤ val xs (seq.getD (seq.length - 1) 0))
    (hlt : val xs n < val xs (seq.getD (findInsertPosition seq xs (val xs n)) 0))
    (hinv : Inv xs n seq preds) :
    Inv xs (n + 1) (seq.set (findInsertPosition seq xs (val xs n)) n)
      (preds.set n (if 0 < findInsertPosition seq xs (val xs n) then
        ((seq.getD (findInsertPosition seq xs (val xs n) - 1) 0 : Nat) : Int)
        else -1)) := by
  obtain ⟨hP, hS, hC, hT⟩ := hinv
  have hplen : preds.length = xs.length := hP.1
  have hnp : n < preds.length := by omega
  have hlen : 0 < seq.length := List.length_pos.mpr hne
  obtain ⟨hplt, hbelow, habove⟩ := findInsertPosition_spec seq xs (val xs n) hne hS.2 hngt
  set p := findInsertPosition seq xs (val xs n) with hpdef
  constructor
  · -- PredsOk
    refine ⟨by simpa using hplen, ?_⟩
    intro i hi
    simp only [List.length_set] at hi
    by_cases hin : i = n
    · subst hin
      rw [getD_set_self _ _ _ _ hnp]
      by_cases hp0 : 0 < p
      · rw [if_pos hp0]
        have hjn := hS.1 (p - 1) (by omega)
        refine ⟨⟨le_trans (by norm_num) (Int.natCast_nonneg _), by omega⟩, ?_⟩
        intro h0
        exact ⟨hbelow (p - 1) (by omega), hjn.2, hv⟩
      · rw [if_neg hp0]
        refine ⟨⟨by norm_num, by omega⟩, ?_⟩
        intro h0
        norm_num at h0
    · rw [getD_set_ne _ _ _ _ _ (fun he => hin he.symm)]
      exact hP.2 i hi
  refine ⟨?_, ?_, ?_⟩
  · -- SeqOk
    refine ⟨?_, ?_⟩
    · intro k hk
      simp only [List.length_set] at hk
      by_cases hkp : k = p
      · subst hkp
        rw [getD_set_self _ _ _ _ hk]
        exact ⟨by omega, hv⟩
      · rw [getD_set_ne _ _ _ _ _ (fun he => hkp he.symm)]
        have := hS.1 k hk
        exact ⟨by omega, this.2⟩
    · intro a b hab hb
      simp only [List.length_set] at hb
      by_cases hbp : b = p
      · subst hbp
        rw [getD_set_self _ _ _ _ hb, getD_set_ne _ _ _ _ _ (by omega)]
        exact hbelow a hab
      · rw [getD_set_ne _ _ _ _ _ (fun he => hbp he.symm)]
        by_cases hap : a = p
        · subst hap
          rw [getD_set_self _ _ _ _ hplt]
          exact lt_trans hlt (hS.2 p b hab hb)
        · rw [getD_set_ne _ _ _ _ _ (fun he => hap he.symm)]
          exact hS.2 a b hab hb
  · -- ChainsOk
    intro q hq
    simp only [List.length_set] at hq
    by_cases hqp : q = p
    · subst hqp
      by_cases hp0 : 0 < p
      · obtain ⟨c, hc, hclen⟩ := hC (p - 1) (by omega)
        have helts := (chain_props xs preds hP _ _ hc
          (by have := (hS.1 (p - 1) (by omega)).1; omega)).2.2.1
        refine ⟨c ++ [n], ?_, by simp [hclen]; omega⟩
        rw [getD_set_self _ _ _ _ hq]
        refine Chain.cons n (seq.getD (p - 1) 0) c ?_ ?_
        · rw [getD_set_self _ _ _ _ hnp, if_pos hp0]
        · have hjn := (hS.1 (p - 1) (by omega)).1
          exact chain_set_of_ne xs preds n _ _ c hc
            (fun m hm => by have := (helts m hm).1; omega)
      · refine ⟨[n], ?_, by simp; omega⟩
        rw [getD_set_self _ _ _ _ hq]
        refine Chain.nil n ?_
        rw [getD_set_self _ _ _ _ hnp, if_neg hp0]
    · obtain ⟨c, hc, hclen⟩ := hC q hq
      have hqn : seq.getD q 0 < n := (hS.1 q hq).1
      have helts := (chain_props xs preds hP _ _ hc (by omega)).2.2.1
      refine ⟨c, ?_, hclen⟩
      rw [getD_set_ne _ _ _ _ _ (fun he => hqp he.symm)]
      exact chain_set_of_ne xs preds n _ _ c hc
        (fun m hm => by have := (helts m hm).1; omega)
  · -- TailsMin
    intro l hl hlne
    simp only [List.length_set]
    by_cases hmem : n ∈ l
    · rcases List.eq_nil_or_concat l with rfl | ⟨l2, x, hlx⟩
      · exact absurd rfl hlne
      · rw [List.concat_eq_append] at hlx
        subst hlx
        have hx : x = n := incsubseq_mem_last xs n l2 x hl hmem
        rw [hx] at hl
        rw [hx]
        obtain ⟨hl2, hbound, _, _⟩ := incsubseq_concat_parts xs (n + 1) l2 n hl
        have hlastval2 : (l2 ++ [n]).getLast?.getD 0 = n := by
          rw [List.getLast?_concat]
          rfl
        rw [hlastval2]
        by_cases hl2e : l2 = []
        · subst hl2e
          simp only [List.nil_append, List.length_singleton]
          refine ⟨by omega, ?_⟩
          by_cases hp0 : 0 < p
          · rw [getD_set_ne _ _ _ _ _ (by omega)]
            exact le_of_lt (hbelow 0 hp0)
          · have h00 : (1 : Nat) - 1 = p := by omega
            rw [h00, getD_set_self _ _ _ _ hplt]
        · have hl2n : IncSubseq xs n l2 :=
            ⟨hl2.1, fun j hj => ⟨(hbound j hj).1, (hl2.2.1 j hj).2⟩, hl2.2.2⟩
          obtain ⟨hm1, hm2⟩ := hT l2 hl2n hl2e
          have htail : val xs (l2.getLast?.getD 0) < val xs n :=
            (hbound _ (getLast_getD_mem l2 0 hl2e)).2
          have hmlen : 1 ≤ l2.length := by
            have := List.length_pos.mpr hl2e
            omega
          have hmp : l2.length ≤ p := by
            by_contra hcon
            push_neg at hcon
            have hv1 : val xs (seq.getD p 0) ≤ val xs (seq.getD (l2.length - 1) 0) := by
              rcases Nat.lt_or_ge p (l2.length - 1) with h | h
              · exact le_of_lt (hS.2 p (l2.length - 1) h (by omega))
              · have : p = l2.length - 1 := by omega
                rw [this]
            have := lt_of_le_of_lt (le_trans hv1 hm2) htail
            omega
          rw [List.length_append, List.length_singleton]
          refine ⟨by omega, ?_⟩
          have hidx : l2.length + 1 - 1 = l2.length := by omega
          rw [hidx]
          by_cases hmpe : l2.length = p
          · rw [hmpe, getD_set_self _ _ _ _ hplt]
          · rw [getD_set_ne _ _ _ _ _ (fun he => hmpe he.symm)]
            exact le_of_lt (hbelow l2.length (by omega))
    · have hln : IncSubseq xs n l := incsubseq_drop_not_mem xs n l hl hmem
      obtain ⟨hm1, hm2⟩ := hT l hln hlne
      have hl1 : 1 ≤ l.length := by
        have := List.length_pos.mpr hlne
        omega
      refine ⟨by omega, ?_⟩
      by_cases hmpe : l.length - 1 = p
      · rw [hmpe, getD_set_self _ _ _ _ hplt]
        rw [hmpe] at hm2
        exact le_of_lt (lt_of_lt_of_le hlt hm2)
      · rw [getD_set_ne _ _ _ _ _ (fun he => hmpe he.symm)]
        exact hm2

/-! ### Invariant preservation: defensive equal-value skip -/

theorem inv_skip_equal (xs : List Int) (n : Nat) (seq : List Nat) (preds : List Int)
    (hn : n < xs.length) (hv : val xs n ≠ -1) (hne : seq ≠ [])
    (hngt : val xs n ≤ val xs (seq.getD (seq.length - 1) 0))
    (hnlt : ¬ val xs n < val xs (seq.getD (findInsertPosition seq xs (val xs n)) 0))
    (hinv : Inv xs n seq preds) : Inv xs (n + 1) seq preds := by
  obtain ⟨hP, hS, hC, hT⟩ := hinv
  have hlen : 0 < seq.length := List.length_pos.mpr hne
  obtain ⟨hplt, hbelow, habove⟩ := findInsertPosition_spec seq xs (val xs n) hne hS.2 hngt
  set p := findInsertPosition seq xs (val xs n) with hpdef
  have heqv : val xs (seq.getD p 0) = val xs n := le_antisymm (not_lt.mp hnlt) habove
  refine ⟨hP, ⟨?_, hS.2⟩, hC, ?_⟩
  · intro k hk
    have := hS.1 k hk
    exact ⟨by omega, this.2⟩
  · intro l hl hlne
    by_cases hmem : n ∈ l
    · rcases List.eq_nil_or_concat l with rfl | ⟨l2, x, hlx⟩
      · exact absurd rfl hlne
      · rw [List.concat_eq_append] at hlx
        subst hlx
        have hx : x = n := incsubseq_mem_last xs n l2 x hl hmem
        rw [hx] at hl
        rw [hx]
        obtain ⟨hl2, hbound, _, _⟩ := incsubseq_concat_parts xs (n + 1) l2 n hl
        have hlastval2 : (l2 ++ [n]).getLast?.getD 0 = n := by
          rw [List.getLast?_concat]
          rfl
        rw [hlastval2]
        by_cases hl2e : l2 = []
        · subst hl2e
          simp only [List.nil_append, List.length_singleton]
          refine ⟨by omega, ?_⟩
          by_cases hp0 : 0 < p
          · exact le_of_lt (hbelow 0 hp0)
          · have h00 : (1 : Nat) - 1 = p := by omega
            rw [h00]
            exact le_of_eq heqv
        · have hl2n : IncSubseq xs n l2 :=
            ⟨hl2.1, fun j hj => ⟨(hbound j hj).1, (hl2.2.1 j hj).2⟩, hl2.2.2⟩
          obtain ⟨hm1, hm2⟩ := hT l2 hl2n hl2e
          have htail : val xs (l2.getLast?.getD 0) < val xs n :=
            (hbound _ (getLast_getD_mem l2 0 hl2e)).2
          have hmlen : 1 ≤ l2.length := by
            have := List.length_pos.mpr hl2e
            omega
          have hmp : l2.length ≤ p := by
            by_contra hcon
            push_neg at hcon
            have hv1 : val xs (seq.getD p 0) ≤ val xs (seq.getD (l2.length - 1) 0) := by
              rcases Nat.lt_or_ge p (l2.length - 1) with h | h
              · exact le_of_lt (hS.2 p (l2.length - 1) h (by omega))
              · have : p = l2.length - 1 := by omega
                rw [this]
            have := lt_of_le_of_lt (le_trans hv1 hm2) htail
            omega
          rw [List.length_append, List.length_singleton]
          refine ⟨by omega, ?_⟩
          have hidx : l2.length + 1 - 1 = l2.length := by omega
          rw [hidx]
          by_cases hmpe : l2.length = p
          · rw [hmpe]
            exact le_of_eq heqv
          · exact le_of_lt (hbelow l2.length (by omega))
    · exact hT l (incsubseq_drop_not_mem xs n l hl hmem) hlne

/-! ### The invariant holds at every loop iteration -/

theorem getD_replicate {α : Type} (a d : α) (m i : Nat) (h : i < m) :
    (List.replicate m a).getD i d = a := by
  rw [List.getD_eq_getElem _ _ (by simpa using h)]
  exact List.getElem_replicate a (by simpa using h)

theorem inv_step (xs : List Int) (n : Nat) (seq : List Nat) (preds : List Int)
    (hn : n < xs.length) (hinv : Inv xs n seq preds) :
    Inv xs (n + 1) (determineAction xs n (val xs n) seq preds).2.1
      (determineAction xs n (val xs n) seq preds).2.2 := by
  by_cases hv : val xs n = -1
  · have heq : determineAction xs n (val xs n) seq preds =
        (StepAction.skip n, seq, preds) := by
      simp only [determineAction, if_pos hv]
    rw [heq]
    exact inv_skip_sentinel xs n seq preds hv hinv
  · cases hlast : seq.getLast? with
    | none =>
      have hseqe : seq = [] := by simpa using hlast
      subst hseqe
      have heq : determineAction xs n (val xs n) [] preds =
          (StepAction.append n, [] ++ [n], preds.set n (-1)) := by
        simp only [determineAction, if_neg hv, List.getLast?_nil]
      rw [heq]
      exact inv_append_empty xs n preds hn hv hinv
    | some last =>
      have hne : seq ≠ [] := by
        intro h
        subst h
        simp at hlast
      have hlastd : last = seq.getD (seq.length - 1) 0 := by
        have := getLast?_eq_getD seq 0 hne
        rw [hlast] at this
        exact Option.some.inj this
      by_cases hgt : val xs last < val xs n
      · have heq : determineAction xs n (val xs n) seq preds =
            (StepAction.append n, seq ++ [n], preds.set n ((last : Nat) : Int)) := by
          simp only [determineAction, if_neg hv, hlast, if_pos hgt]
        rw [heq, hlastd]
        exact inv_append xs n seq preds hn hv hne (hlastd ▸ hgt) hinv
      · have hngt : val xs n ≤ val xs (seq.getD (seq.length - 1) 0) := by
          rw [← hlastd]
          exact not_lt.mp hgt
        by_cases hlt : val xs n <
            val xs (seq.getD (findInsertPosition seq xs (val xs n)) 0)
        · have heq : determineAction xs n (val xs n) seq preds =
              (StepAction.replace (findInsertPosition seq xs (val xs n)) n,
                seq.set (findInsertPosition seq xs (val xs n)) n,
                preds.set n (if 0 < findInsertPosition seq xs (val xs n) then
                  ((seq.getD (findInsertPosition seq xs (val xs n) - 1) 0 : Nat) : Int)
                  else -1)) := by
            simp only [determineAction, if_neg hv, hlast, if_neg hgt, if_pos hlt]
          rw [heq]
          exact inv_replace xs n seq preds hn hv hne hngt hlt hinv
        · have heq : determineAction xs n (val xs n) seq preds =
              (StepAction.skip n, seq, preds) := by
            simp only [determineAction, if_neg hv, hlast, if_neg hgt, if_neg hlt]
          rw [heq]
          exact inv_skip_equal xs n seq preds hn hv hne hngt hlt hinv

theorem inv_stateAt (xs : List Int) :
    ∀ n, n ≤ xs.length → Inv xs n (stateAt xs n).1 (stateAt xs n).2 := by
  intro n
  induction n with
  | zero =>
    intro _
    refine ⟨⟨by simp [stateAt, initPreds], ?_⟩, ⟨?_, ?_⟩, ?_, ?_⟩
    · intro i hi
      simp only [stateAt, initPreds, List.length_replicate] at hi
      have : (stateAt xs 0).2.getD i 0 = -1 := by
        simp only [stateAt]
        exact getD_replicate _ _ _ _ hi
      rw [this]
      refine ⟨⟨by norm_num, by omega⟩, ?_⟩
      intro h0
      norm_num at h0
    · intro k hk
      simp [stateAt] at hk
    · intro a b hab hb
      simp [stateAt] at hb
    · intro q hq
      simp [stateAt] at hq
    · intro l hl hlne
      rcases l with _ | ⟨a, t⟩
      · exact absurd rfl hlne
      · have := (hl.2.1 a (by simp)).1
        omega
  | succ n ih =>
    intro hn1
    have hn : n < xs.length := by omega
    exact inv_step xs n (stateAt xs n).1 (stateAt xs n).2 hn (ih (by omega))

/-! ### Structure of the recorded step list -/

theorem traceSteps_length (xs : List Int) :
    ∀ r c s p, (traceSteps xs r c s p).length = r := by
  intro r
  induction r with
  | zero => intro c s p; rfl
  | succ r ih =>
    intro c s p
    simp only [traceSteps, List.length_cons, ih]

theorem traceSteps_getD (xs : List Int) (d : VisualizationStep) :
    ∀ r c j, j < r → c + r ≤ xs.length →
      (traceSteps xs r c (stateAt xs c).1 (stateAt xs c).2).getD j d =
        mkStep xs (c + j) := by
  intro r
  induction r with
  | zero =>
    intro c j hj hcr
    omega
  | succ r ih =>
    intro c j hj hcr
    cases j with
    | zero =>
      simp only [traceSteps, List.getD_cons_zero, Nat.add_zero]
      rfl
    | succ j =>
      simp only [traceSteps, List.getD_cons_succ]
      show (traceSteps xs r (c + 1) (stateAt xs (c + 1)).1
        (stateAt xs (c + 1)).2).getD j d = mkStep xs (c + (j + 1))
      rw [ih (c + 1) j (by omega) (by omega)]
      congr 1
      omega

theorem trace_steps_length (xs : List Int) :
    (traceLongestIncreasingSubsequence xs).steps.length = xs.length + 1 := by
  simp only [traceLongestIncreasingSubsequence, List.length_cons, traceSteps_length]

theorem trace_steps_getD_zero (xs : List Int) (d : VisualizationStep) :
    (traceLongestIncreasingSubsequence xs).steps.getD 0 d = initStep xs := rfl

theorem trace_steps_getD_succ (xs : List Int) (d : VisualizationStep) (k : Nat)
    (hk : k < xs.length) :
    (traceLongestIncreasingSubsequence xs).steps.getD (k + 1) d = mkStep xs k := by
  have h := traceSteps_getD xs d xs.length 0 k hk (by omega)
  rw [Nat.zero_add] at h
  exact h

theorem steps_state (xs : List Int) (d : VisualizationStep) (k : Nat)
    (hk : k ≤ xs.length) :
    ((traceLongestIncreasingSubsequence xs).steps.getD k d).sequence =
      (stateAt xs k).1 ∧
    ((traceLongestIncreasingSubsequence xs).steps.getD k d).predecessors =
      (stateAt xs k).2 := by
  cases k with
  | zero => exact ⟨rfl, rfl⟩
  | succ k =>
    rw [trace_steps_getD_succ xs d k (by omega)]
    exact ⟨rfl, rfl⟩

/-! ### Sequence length monotonicity across the loop -/

theorem determineAction_seq_len (xs : List Int) (n : Nat) (v : Int)
    (seq : List Nat) (preds : List Int) :
    seq.length ≤ ((determineAction xs n v seq preds).2.1).length := by
  unfold determineAction
  split
  · exact Nat.le_refl _
  · split
    · simp
    · split
      · simp
      · simp only []
        split
        · simp
        · exact Nat.le_refl _

theorem stateAt_len_le_succ (xs : List Int) (n : Nat) :
    (stateAt xs n).1.length ≤ (stateAt xs (n + 1)).1.length :=
  determineAction_seq_len xs n (val xs n) (stateAt xs n).1 (stateAt xs n).2

theorem stateAt_len_mono (xs : List Int) :
    ∀ n m, n ≤ m → (stateAt xs n).1.length ≤ (stateAt xs m).1.length := by
  intro n m hnm
  induction m with
  | zero =>
    have : n = 0 := by omega
    subst this
    exact Nat.le_refl _
  | succ m ih =>
    rcases Nat.lt_or_ge n (m + 1) with h | h
    · exact Nat.le_trans (ih (by omega)) (stateAt_len_le_succ xs m)
    · have : n = m + 1 := by omega
      subst this
      exact Nat.le_refl _

/-! ### Claim theorems -/

/-- Claim C9: every trace has `input.length + 1` steps; step 0 is the `Init`
snapshot; step `i + 1` records position `i` of the input; the empty input
yields exactly one `Init` step and an empty result. -/
theorem trace_shape (xs : List Int) (d : VisualizationStep) :
    (traceLongestIncreasingSubsequence xs).steps.length = xs.length + 1 ∧
    (traceLongestIncreasingSubsequence xs).steps.getD 0 d = initStep xs ∧
    (∀ i, i < xs.length →
      ((traceLongestIncreasingSubsequence xs).steps.getD (i + 1) d).stepIndex = i + 1 ∧
      ((traceLongestIncreasingSubsequence xs).steps.getD (i + 1) d).currentIndex = (i : Int) ∧
      ((traceLongestIncreasingSubsequence xs).steps.getD (i + 1) d).currentValue = val xs i) ∧
    (traceLongestIncreasingSubsequence []).steps.length = 1 ∧
    (traceLongestIncreasingSubsequence []).result = [] := by
  refine ⟨trace_steps_length xs, trace_steps_getD_zero xs d, ?_, rfl, rfl⟩
  intro i hi
  rw [trace_steps_getD_succ xs d i hi]
  exact ⟨rfl, rfl, rfl⟩

theorem trace_shape_witness :
    (traceLongestIncreasingSubsequence [2, 1]).steps.length = ([2, 1] : List Int).length + 1 ∧
    ((traceLongestIncreasingSubsequence [2, 1]).steps.getD 1 (initStep [])).currentValue =
      val [2, 1] 0 :=
  ⟨(trace_shape [2, 1] (initStep [])).1,
   ((trace_shape [2, 1] (initStep [])).2.2.1 0 (by decide)).2.2⟩

/-- Claim C5: the recorded `sequence` length is non-decreasing along the step list. -/
theorem seq_len_monotone (xs : List Int) (d : VisualizationStep) (i j : Nat)
    (hij : i ≤ j) (hj : j < (traceLongestIncreasingSubsequence xs).steps.length) :
    ((traceLongestIncreasingSubsequence xs).steps.getD i d).sequence.length ≤
    ((traceLongestIncreasingSubsequence xs).steps.getD j d).sequence.length := by
  have hlen := trace_steps_length xs
  have hj2 : j ≤ xs.length := by omega
  have hi2 : i ≤ xs.length := by omega
  rw [(steps_state xs d i hi2).1, (steps_state xs d j hj2).1]
  exact stateAt_len_mono xs i j hij

theorem seq_len_monotone_witness :
    ((traceLongestIncreasingSubsequence [2, 1, 3, 0, 4]).steps.getD 1
      (initStep [])).sequence.length ≤
    ((traceLongestIncreasingSubsequence [2, 1, 3, 0, 4]).steps.getD 4
      (initStep [])).sequence.length :=
  seq_len_monotone [2, 1, 3, 0, 4] (initStep []) 1 4 (by decide) (by decide)

/-- Claim C6: a sentinel (-1) input position is recorded as `Skip` with `sequence`
and `predecessors` unchanged from the preceding step. -/
theorem sentinel_skip (xs : List Int) (d : VisualizationStep) (i : Nat)
    (hi : i < xs.length) (hv : val xs i = -1) :
    ((traceLongestIncreasingSubsequence xs).steps.getD (i + 1) d).action =
      StepAction.skip i ∧
    ((traceLongestIncreasingSubsequence xs).steps.getD (i + 1) d).sequence =
      ((traceLongestIncreasingSubsequence xs).steps.getD i d).sequence ∧
    ((traceLongestIncreasingSubsequence xs).steps.getD (i + 1) d).predecessors =
      ((traceLongestIncreasingSubsequence xs).steps.getD i d).predecessors := by
  have hda : determineAction xs i (val xs i) (stateAt xs i).1 (stateAt xs i).2 =
      (StepAction.skip i, (stateAt xs i).1, (stateAt xs i).2) := by
    simp only [determineAction, if_pos hv]
  have hst : stateAt xs (i + 1) = ((stateAt xs i).1, (stateAt xs i).2) := by
    show (determineAction xs i (val xs i) (stateAt xs i).1 (stateAt xs i).2).2 = _
    rw [hda]
  have hseq := steps_state xs d i (by omega)
  rw [trace_steps_getD_succ xs d i hi]
  refine ⟨?_, ?_, ?_⟩
  · show (determineAction xs i (val xs i) (stateAt xs i).1 (stateAt xs i).2).1 =
      StepAction.skip i
    rw [hda]
  · rw [hseq.1]
    show (stateAt xs (i + 1)).1 = (stateAt xs i).1
    rw [hst]
  · rw [hseq.2]
    show (stateAt xs (i + 1)).2 = (stateAt xs i).2
    rw [hst]

theorem sentinel_skip_witness :
    (2 < ([2, 1, -1, 0, 4] : List Int).length ∧ val [2, 1, -1, 0, 4] 2 = -1) ∧
    (((traceLongestIncreasingSubsequence [2, 1, -1, 0, 4]).steps.getD 3
        (initStep [])).action = StepAction.skip 2 ∧
     ((traceLongestIncreasingSubsequence [2, 1, -1, 0, 4]).steps.getD 3
        (initStep [])).sequence =
      ((traceLongestIncreasingSubsequence [2, 1, -1, 0, 4]).steps.getD 2
        (initStep [])).sequence ∧
     ((traceLongestIncreasingSubsequence [2, 1, -1, 0, 4]).steps.getD 3
        (initStep [])).predecessors =
      ((traceLongestIncreasingSubsequence [2, 1, -1, 0, 4]).steps.getD 2
        (initStep [])).predecessors) :=
  ⟨⟨by decide, by decide⟩,
   sentinel_skip [2, 1, -1, 0, 4] (initStep []) 2 (by decide) (by decide)⟩

/-- `iterNext` keeps the trace and clamps the cursor at `totalSteps - 1`. -/
theorem iterNext_trace_cursor (k : Nat) :
    ∀ nav : Navigator, nav.cursor ≤ nav.trace.steps.length - 1 →
      (iterNext k nav).trace = nav.trace ∧
      (iterNext k nav).cursor = min (nav.cursor + k) (nav.trace.steps.length - 1) := by
  induction k with
  | zero =>
    intro nav h
    refine ⟨rfl, ?_⟩
    show nav.cursor = min (nav.cursor + 0) (nav.trace.steps.length - 1)
    omega
  | succ k ih =>
    intro nav h
    by_cases hlt : nav.cursor < nav.trace.steps.length - 1
    · have hnext : (nav.next).1 = { nav with cursor := nav.cursor + 1 } := by
        simp only [Navigator.next, if_pos hlt]
      have hstep : iterNext (k + 1) nav =
          iterNext k { nav with cursor := nav.cursor + 1 } := by
        simp only [iterNext, hnext]
      rw [hstep]
      have hres := ih { nav with cursor := nav.cursor + 1 } (by simp; omega)
      simp only at hres
      exact ⟨hres.1, by rw [hres.2]; omega⟩
    · have hnext : (nav.next).1 = nav := by
        simp only [Navigator.next, if_neg hlt]
      have hstep : iterNext (k + 1) nav = iterNext k nav := by
        simp only [iterNext, hnext]
      rw [hstep]
      have hres := ih nav h
      exact ⟨hres.1, by rw [hres.2]; omega⟩

/-- Claim C7: from `reset()`, `totalSteps - 1` calls of `next()` reach the state
where `canGoForward` is false, and one more `next()` is a no-op returning
none. -/
theorem navigator_exhaustion (trace : TraceResult) :
    (iterNext (trace.steps.length - 1)
      ((createStepNavigator trace).reset)).getState.canGoForward = false ∧
    ((iterNext (trace.steps.length - 1)
      ((createStepNavigator trace).reset)).next).1 =
      iterNext (trace.steps.length - 1) ((createStepNavigator trace).reset) ∧
    ((iterNext (trace.steps.length - 1)
      ((createStepNavigator trace).reset)).next).2 = none := by
  have hres := iterNext_trace_cursor (trace.steps.length - 1)
    ((createStepNavigator trace).reset) (by simp [createStepNavigator, Navigator.reset])
  have htr : (iterNext (trace.steps.length - 1)
      ((createStepNavigator trace).reset)).trace = trace := hres.1
  have hcur : (iterNext (trace.steps.length - 1)
      ((createStepNavigator trace).reset)).cursor = trace.steps.length - 1 := by
    rw [hres.2]
    show min (0 + (trace.steps.length - 1)) (trace.steps.length - 1) = _
    omega
  have hnlt : ¬ (iterNext (trace.steps.length - 1)
      ((createStepNavigator trace).reset)).cursor <
      (iterNext (trace.steps.length - 1)
        ((createStepNavigator trace).reset)).trace.steps.length - 1 := by
    rw [hcur, htr]
    omega
  refine ⟨?_, ?_, ?_⟩
  · simp only [Navigator.getState]
    rw [hcur, htr]
    simp
  · simp only [Navigator.next, if_neg hnlt]
  · simp only [Navigator.next, if_neg hnlt]

/-- Claim C8: `goTo(k)` lands on step `k` and returns its snapshot exactly when
`0 ≤ k ≤ totalSteps - 1`; outside that range it returns none and leaves the
cursor unchanged. -/
theorem goTo_roundtrip (nav : Navigator) (k : Int) :
    (0 ≤ k → k ≤ (nav.trace.steps.length : Int) - 1 →
      (((nav.goTo k).1.getState.currentStep : Int) = k ∧
       (nav.goTo k).2 = nav.trace.steps.get? k.toNat ∧
       ((nav.goTo k).2).isSome = true)) ∧
    ((k < 0 ∨ (nav.trace.steps.length : Int) ≤ k) →
      ((nav.goTo k).2 = none ∧
       (nav.goTo k).1.getState.currentStep = nav.getState.currentStep)) := by
  constructor
  · intro h0 h1
    have hin : 0 ≤ k ∧ k < (nav.trace.steps.length : Int) := ⟨h0, by omega⟩
    have heq : nav.goTo k = ({ nav with cursor := k.toNat },
        ({ nav with cursor := k.toNat } : Navigator).getCurrentStep) := by
      simp only [Navigator.goTo, if_pos hin]
    rw [heq]
    refine ⟨?_, rfl, ?_⟩
    · simp only [Navigator.getState]
      omega
    · have hlt : k.toNat < nav.trace.steps.length := by omega
      simp only [Navigator.getCurrentStep]
      rw [List.get?_eq_get hlt]
      rfl
  · intro hout
    have hnin : ¬ (0 ≤ k ∧ k < (nav.trace.steps.length : Int)) := by
      intro hcon
      rcases hout with h | h <;> omega
    have heq : nav.goTo k = (nav, none) := by
      simp only [Navigator.goTo, if_neg hnin]
    rw [heq]
    exact ⟨rfl, rfl⟩

theorem goTo_roundtrip_witness :
    ((((createStepNavigator (traceLongestIncreasingSubsequence [2, 1])).goTo 2).1.getState.currentStep : Int) = 2 ∧
     ((createStepNavigator (traceLongestIncreasingSubsequence [2, 1])).goTo 2).2 =
       (createStepNavigator (traceLongestIncreasingSubsequence [2, 1])).trace.steps.get? (2 : Int).toNat ∧
     (((createStepNavigator (traceLongestIncreasingSubsequence [2, 1])).goTo 2).2).isSome = true) ∧
    (((createStepNavigator (traceLongestIncreasingSubsequence [2, 1])).goTo (-1)).2 = none ∧
     ((createStepNavigator (traceLongestIncreasingSubsequence [2, 1])).goTo (-1)).1.getState.currentStep =
       (createStepNavigator (traceLongestIncreasingSubsequence [2, 1])).getState.currentStep) :=
  ⟨(goTo_roundtrip (createStepNavigator (traceLongestIncreasingSubsequence [2, 1])) 2).1
      (by decide) (by decide),
   (goTo_roundtrip (createStepNavigator (traceLongestIncreasingSubsequence [2, 1])) (-1)).2
      (Or.inl (by decide))⟩

/-- Claim C3: a playback tick advances the navigator; if `next()` produced a
snapshot the `onStepUpdate` callback is invoked (flag true) with playback
state untouched, and if it produced none the controller stops in the same
tick (`isPlaying` false, timer cleared) without invoking the callback. -/
theorem playback_tick_spec (nav : Navigator) (pb : PlaybackState) :
    ((nav.next).2.isSome = true →
      playbackTick nav pb = ((nav.next).1, pb, true)) ∧
    ((nav.next).2 = none →
      playbackTick nav pb = (nav, { isPlaying := false, timerActive := false }, false) ∧
      (nav.next).1 = nav) := by
  constructor
  · intro h
    cases hr : (nav.next).2 with
    | none =>
      rw [hr] at h
      simp at h
    | some s =>
      simp only [playbackTick, hr]
  · intro h
    by_cases hlt : nav.cursor < nav.trace.steps.length - 1
    · exfalso
      have h2 : (nav.next).2 = nav.trace.steps.get? (nav.cursor + 1) := by
        simp only [Navigator.next, if_pos hlt, Navigator.getCurrentStep]
      rw [h] at h2
      have hlt2 : nav.cursor + 1 < nav.trace.steps.length := by omega
      rw [List.get?_eq_get hlt2] at h2
      exact Option.noConfusion h2
    · have h1 : nav.next = (nav, none) := by
        simp only [Navigator.next, if_neg hlt]
      constructor
      · simp only [playbackTick, h1]
      · rw [h1]

theorem playback_tick_spec_witness :
    playbackTick (createStepNavigator (traceLongestIncreasingSubsequence [0]))
      { isPlaying := true, timerActive := true } =
      (((createStepNavigator (traceLongestIncreasingSubsequence [0])).next).1,
        { isPlaying := true, timerActive := true }, true) ∧
    (playbackTick { trace := traceLongestIncreasingSubsequence [0], cursor := 1 }
      { isPlaying := true, timerActive := true } =
      ({ trace := traceLongestIncreasingSubsequence [0], cursor := 1 },
        { isPlaying := false, timerActive := false }, false) ∧
     (({ trace := traceLongestIncreasingSubsequence [0], cursor := 1 } : Navigator).next).1 =
       { trace := traceLongestIncreasingSubsequence [0], cursor := 1 }) :=
  ⟨(playback_tick_spec (createStepNavigator (traceLongestIncreasingSubsequence [0]))
      { isPlaying := true, timerActive := true }).1 (by decide),
   (playback_tick_spec { trace := traceLongestIncreasingSubsequence [0], cursor := 1 }
      { isPlaying := true, timerActive := true }).2 (by decide)⟩

/-- Claim C4: in every recorded snapshot, and in the final state, every predecessor
entry is `-1` or an index strictly smaller than its own position, and in
consequence every predecessor walk from index `i` finishes within `i + 1`
iterations. -/
theorem predecessor_bounds (xs : List Int) :
    (∀ step ∈ (traceLongestIncreasingSubsequence xs).steps,
      PredEntriesBounded step.predecessors ∧ WalkStable step.predecessors) ∧
    PredEntriesBounded (stateAt xs xs.length).2 ∧
    WalkStable (stateAt xs xs.length).2 := by
  have hbase : ∀ k, k ≤ xs.length → PredEntriesBounded (stateAt xs k).2 := by
    intro k hk i hi
    exact ((inv_stateAt xs k hk).1.2 i hi).1
  constructor
  · intro step hstep
    obtain ⟨n, hn⟩ := List.mem_iff_get.mp hstep
    have hlen := trace_steps_length xs
    have hn2 : (n : Nat) < xs.length + 1 := by
      have := n.isLt
      omega
    have hD : (traceLongestIncreasingSubsequence xs).steps.getD n (initStep []) = step := by
      rw [List.getD_eq_getElem _ _ n.isLt, ← hn]
      simp
    have hps := (steps_state xs (initStep []) n (by omega)).2
    rw [hD] at hps
    rw [hps]
    have hb := hbase n (by omega)
    exact ⟨hb, chainWalk_stable_of_bounded _ hb⟩
  · have hb := hbase xs.length (Nat.le_refl _)
    exact ⟨hb, chainWalk_stable_of_bounded _ hb⟩

theorem predecessor_bounds_witness :
    ((traceLongestIncreasingSubsequence [2, 1, 3]).steps.getD 2 (initStep []) ∈
      (traceLongestIncreasingSubsequence [2, 1, 3]).steps) ∧
    (PredEntriesBounded ((traceLongestIncreasingSubsequence [2, 1, 3]).steps.getD 2
        (initStep [])).predecessors ∧
     WalkStable ((traceLongestIncreasingSubsequence [2, 1, 3]).steps.getD 2
        (initStep [])).predecessors) :=
  ⟨by decide,
   (predecessor_bounds [2, 1, 3]).1
     ((traceLongestIncreasingSubsequence [2, 1, 3]).steps.getD 2 (initStep []))
     (by decide)⟩

/-! ### C1: full correctness of the traced LIS -/

theorem foldr_max_le (L : List Nat) (m : Nat) (h : ∀ x ∈ L, x ≤ m) :
    L.foldr Nat.max 0 ≤ m := by
  induction L with
  | nil => exact Nat.zero_le m
  | cons a t ih =>
    simp only [List.foldr_cons]
    exact Nat.max_le.mpr ⟨h a (by simp), ih (fun x hx => h x (by simp [hx]))⟩

theorem foldr_max_eq (L : List Nat) (m : Nat) (hall : ∀ x ∈ L, x ≤ m)
    (hmem : m ∈ L) : L.foldr Nat.max 0 = m := by
  induction L with
  | nil => simp at hmem
  | cons a t ih =>
    simp only [List.foldr_cons]
    rcases List.mem_cons.mp hmem with h | h
    · subst h
      exact Nat.max_eq_left (foldr_max_le t m (fun x hx => hall x (by simp [hx])))
    · rw [ih (fun x hx => hall x (by simp [hx])) h]
      exact Nat.max_eq_right (hall a (by simp))

theorem traceSequenceResult_some (seq : List Nat) (preds : List Int) (i : Nat)
    (h : seq.getLast? = some i) :
    traceSequenceResult seq preds =
      (chainWalk preds ((i : Nat) : Int) (preds.length + 1)).reverse := by
  simp only [traceSequenceResult, h]

theorem traceSequenceResult_none (seq : List Nat) (preds : List Int)
    (h : seq.getLast? = none) :
    traceSequenceResult seq preds = [] := by
  simp only [traceSequenceResult, h]
  rw [chainWalk_neg _ _ _ (by norm_num)]
  rfl

theorem steps_len_foldr (xs : List Int) :
    ((traceLongestIncreasingSubsequence xs).steps.map
      (fun s => s.sequence.length)).foldr Nat.max 0 =
      (stateAt xs xs.length).1.length := by
  apply foldr_max_eq
  · intro x hx
    obtain ⟨s, hs, hfx⟩ := List.mem_map.mp hx
    obtain ⟨n, hn⟩ := List.mem_iff_get.mp hs
    have hlen := trace_steps_length xs
    have hn2 : (n : Nat) < xs.length + 1 := by
      have := n.isLt
      omega
    have hD : (traceLongestIncreasingSubsequence xs).steps.getD (n : Nat)
        (initStep []) = s := by
      rw [List.getD_eq_getElem _ _ n.isLt, ← hn]
      simp
    have hseq := (steps_state xs (initStep []) (n : Nat) (by omega)).1
    rw [hD] at hseq
    rw [← hfx]
    show s.sequence.length ≤ (stateAt xs xs.length).1.length
    rw [hseq]
    exact stateAt_len_mono xs (n : Nat) xs.length (by omega)
  · have hmem : (traceLongestIncreasingSubsequence xs).steps.getD xs.length
        (initStep []) ∈ (traceLongestIncreasingSubsequence xs).steps :=
      getD_mem _ _ _ (by rw [trace_steps_length]; omega)
    have hseq := (steps_state xs (initStep []) xs.length (Nat.le_refl _)).1
    have heq : (stateAt xs xs.length).1.length =
        (fun s : VisualizationStep => s.sequence.length)
          ((traceLongestIncreasingSubsequence xs).steps.getD xs.length (initStep [])) := by
      simp only [hseq]
    rw [heq]
    exact List.mem_map_of_mem _ hmem

/-- Claim C1: for duplicate-free (over non-sentinel values) inputs, the traced
result is a strictly increasing subsequence (in index and value), its length
is the maximum recorded `sequence` length, and no strictly increasing
subsequence over non-sentinel values is longer. -/
theorem lis_trace_correct (xs : List Int) (hnd : NoDupNonSentinel xs) :
    (traceLongestIncreasingSubsequence xs).result.Pairwise (fun a b => a < b) ∧
    (traceLongestIncreasingSubsequence xs).result.Pairwise
      (fun a b => val xs a < val xs b) ∧
    (traceLongestIncreasingSubsequence xs).result.length =
      ((traceLongestIncreasingSubsequence xs).steps.map
        (fun s => s.sequence.length)).foldr Nat.max 0 ∧
    (∀ l, IncSubseq xs xs.length l →
      l.length ≤ (traceLongestIncreasingSubsequence xs).result.length) := by
  obtain ⟨hP, hS, hC, hT⟩ := inv_stateAt xs xs.length (Nat.le_refl _)
  have hres0 : (traceLongestIncreasingSubsequence xs).result =
      traceSequenceResult (stateAt xs xs.length).1 (stateAt xs xs.length).2 := rfl
  rw [steps_len_foldr xs, hres0]
  by_cases hne : (stateAt xs xs.length).1 = []
  · have hresnil : traceSequenceResult (stateAt xs xs.length).1
        (stateAt xs xs.length).2 = [] := by
      apply traceSequenceResult_none
      rw [hne]
      rfl
    rw [hresnil]
    refine ⟨by simp, by simp, by rw [hne], ?_⟩
    intro l hl
    rcases l with _ | ⟨a, t⟩
    · simp
    · have := (hT (a :: t) hl (by simp)).1
      rw [hne] at this
      simp at this
  · have hlastq := getLast?_eq_getD (stateAt xs xs.length).1 0 hne
    have hlen1 : 0 < (stateAt xs xs.length).1.length := List.length_pos.mpr hne
    obtain ⟨c, hc, hclen⟩ := hC ((stateAt xs xs.length).1.length - 1) (by omega)
    have hlastlt : (stateAt xs xs.length).1.getD
        ((stateAt xs xs.length).1.length - 1) 0 < xs.length :=
      (hS.1 ((stateAt xs xs.length).1.length - 1) (by omega)).1
    have hlastval : val xs ((stateAt xs xs.length).1.getD
        ((stateAt xs xs.length).1.length - 1) 0) ≠ -1 :=
      (hS.1 ((stateAt xs xs.length).1.length - 1) (by omega)).2
    have hplen : (stateAt xs xs.length).2.length = xs.length := hP.1
    have hwalk := chainWalk_eq_of_chain xs (stateAt xs xs.length).2 hP _ c hc
      (by omega) ((stateAt xs xs.length).2.length + 1) (by omega)
    have hresc : traceSequenceResult (stateAt xs xs.length).1
        (stateAt xs xs.length).2 = c := by
      rw [traceSequenceResult_some _ _ _ hlastq, hwalk, List.reverse_reverse]
    rw [hresc]
    obtain ⟨hcne, hclast, hcmem, hcsent, hpw1, hpw2⟩ :=
      chain_props xs (stateAt xs xs.length).2 hP _ c hc (by omega)
    refine ⟨hpw1, hpw2, by rw [hclen]; omega, ?_⟩
    · intro l hl
      rcases l with _ | ⟨a, t⟩
      · simp
      · have := (hT (a :: t) hl (by simp)).1
        omega

theorem lis_trace_correct_witness :
    NoDupNonSentinel [2, 1, 3, 0, 4] ∧
    ((traceLongestIncreasingSubsequence [2, 1, 3, 0, 4]).result.Pairwise (fun a b => a < b) ∧
     (traceLongestIncreasingSubsequence [2, 1, 3, 0, 4]).result.Pairwise
       (fun a b => val [2, 1, 3, 0, 4] a < val [2, 1, 3, 0, 4] b) ∧
     (traceLongestIncreasingSubsequence [2, 1, 3, 0, 4]).result.length =
       ((traceLongestIncreasingSubsequence [2, 1, 3, 0, 4]).steps.map
         (fun s => s.sequence.length)).foldr Nat.max 0 ∧
     (∀ l, IncSubseq [2, 1, 3, 0, 4] ([2, 1, 3, 0, 4] : List Int).length l →
       l.length ≤ (traceLongestIncreasingSubsequence [2, 1, 3, 0, 4]).result.length)) :=
  ⟨by decide, lis_trace_correct [2, 1, 3, 0, 4] (by decide)⟩

/-! ### C2: hover refresh consistency -/

theorem refresh_none (cur : Option VisualizationStep) (st : HoverState)
    (h : st.hoveredChainInfo = none) : refreshHoverState cur st = st := by
  simp only [refreshHoverState, h]

theorem refresh_post (cur : Option VisualizationStep) (st : HoverState) (p : Int)
    (h : st.hoveredChainInfo = some p) :
    ((refreshHoverState cur st).hoveredChainInfo = some p ∧
      ∃ step, cur = some step ∧ 0 ≤ p ∧ p < (step.sequence.length : Int) ∧
        (refreshHoverState cur st).hoveredChainIndexes =
          buildChain step.predecessors ((step.sequence.getD p.toNat 0 : Nat) : Int)) ∨
    ((refreshHoverState cur st).hoveredChainInfo = none ∧
      (refreshHoverState cur st).hoveredChainIndexes = []) := by
  cases cur with
  | none =>
    right
    have heq : refreshHoverState none st =
        { st with hoveredChainIndexes := [], hoveredChainInfo := none } := by
      simp only [refreshHoverState, h]
    rw [heq]
    exact ⟨rfl, rfl⟩
  | some step =>
    by_cases hr : p < 0 ∨ (step.sequence.length : Int) ≤ p
    · right
      have heq : refreshHoverState (some step) st =
          { st with hoveredChainIndexes := [], hoveredChainInfo := none } := by
        simp only [refreshHoverState, h, if_pos hr]
      rw [heq]
      exact ⟨rfl, rfl⟩
    · left
      have heq : refreshHoverState (some step) st =
          { st with hoveredChainIndexes :=
            buildChain step.predecessors ((step.sequence.getD p.toNat 0 : Nat) : Int) } := by
        simp only [refreshHoverState, h, if_neg hr]
      rw [heq]
      push_neg at hr
      exact ⟨h, step, rfl, hr.1, hr.2, rfl⟩

/-- Claim C2, amended: after `handleChainHover(chain, p)` and a nonempty sequence of
cursor moves each followed by `refreshHoverState()`, either the hover is still
live at `p` and `hoveredChainIndexes` is the chain rebuilt from the current
snapshot, or the hover has been cleared (`hoveredChainInfo` none, indexes
empty) — and once cleared it stays cleared even if `p` is back in range. -/
theorem hover_refresh_consistent (nav : Navigator) (st : HoverState)
    (chain : List Nat) (p : Int) (moves : List NavMove) (hne : moves ≠ []) :
    HoverPost (runMoves (nav, handleChainHover st chain p) moves).1 p
      (runMoves (nav, handleChainHover st chain p) moves).2 := by
  have key : ∀ ms (nv : Navigator) (s : HoverState), ms ≠ [] →
      (s.hoveredChainInfo = some p ∨
        (s.hoveredChainInfo = none ∧ s.hoveredChainIndexes = [])) →
      HoverPost (runMoves (nv, s) ms).1 p (runMoves (nv, s) ms).2 := by
    intro ms
    induction ms with
    | nil =>
      intro nv s hne2 hpre
      exact absurd rfl hne2
    | cons m ms ih =>
      intro nv s hne2 hpre
      show HoverPost (runMoves (stepSystem (nv, s) m) ms).1 p
        (runMoves (stepSystem (nv, s) m) ms).2
      rcases ms with _ | ⟨m2, ms2⟩
      · show HoverPost (stepSystem (nv, s) m).1 p (stepSystem (nv, s) m).2
        rcases hpre with hsome | ⟨hnone, hidx⟩
        · exact refresh_post ((applyMove nv m).getCurrentStep) s p hsome
        · refine Or.inr ?_
          have heq : (stepSystem (nv, s) m).2 = s :=
            refresh_none ((applyMove nv m).getCurrentStep) s hnone
          rw [heq]
          exact ⟨hnone, hidx⟩
      · apply ih (applyMove nv m)
          (refreshHoverState ((applyMove nv m).getCurrentStep) s) (by simp)
        rcases hpre with hsome | ⟨hnone, hidx⟩
        · rcases refresh_post ((applyMove nv m).getCurrentStep) s p hsome with
            ⟨h1, _⟩ | ⟨h1, h2⟩
          · exact Or.inl h1
          · exact Or.inr ⟨h1, h2⟩
        · rw [refresh_none ((applyMove nv m).getCurrentStep) s hnone]
          exact Or.inr ⟨hnone, hidx⟩
  apply key moves nav (handleChainHover st chain p) hne
  exact Or.inl rfl

theorem hover_refresh_consistent_witness :
    (([NavMove.next] : List NavMove) ≠ []) ∧
    HoverPost (runMoves (createStepNavigator (traceLongestIncreasingSubsequence [0, 1]),
        handleChainHover initialHoverState [9, 9] 0) [NavMove.next]).1 0
      (runMoves (createStepNavigator (traceLongestIncreasingSubsequence [0, 1]),
        handleChainHover initialHoverState [9, 9] 0) [NavMove.next]).2 :=
  ⟨by decide,
   hover_refresh_consistent (createStepNavigator (traceLongestIncreasingSubsequence [0, 1]))
     initialHoverState [9, 9] 0 [NavMove.next] (by decide)⟩

/-- Claim C2, counterexample to the claim as stated: hover at `p = 1` on the last
step of the trace of `[0, 1]`, move back (hover cleared: `p` out of range for
step 1), move forward again: `p = 1` is back in range of the current snapshot
and the freshly rebuilt chain would be `[0, 1]`, yet `hoveredChainIndexes`
stays empty — the state does not equal the freshly computed chain and the
out-of-range escape clause does not apply. -/
theorem hover_stale_counterexample :
    (runMoves
        ((((createStepNavigator (traceLongestIncreasingSubsequence [0, 1])).goTo 2).1,
          handleChainHover initialHoverState [0, 1] 1))
        [NavMove.prev, NavMove.next]).2.hoveredChainIndexes = [] ∧
    (runMoves
        ((((createStepNavigator (traceLongestIncreasingSubsequence [0, 1])).goTo 2).1,
          handleChainHover initialHoverState [0, 1] 1))
        [NavMove.prev, NavMove.next]).2.hoveredChainInfo = none ∧
    (runMoves
        ((((createStepNavigator (traceLongestIncreasingSubsequence [0, 1])).goTo 2).1,
          handleChainHover initialHoverState [0, 1] 1))
        [NavMove.prev, NavMove.next]).1.getCurrentStep =
      some ((traceLongestIncreasingSubsequence [0, 1]).steps.getD 2 (initStep [])) ∧
    1 < ((traceLongestIncreasingSubsequence [0, 1]).steps.getD 2
      (initStep [])).sequence.length ∧
    buildChain ((traceLongestIncreasingSubsequence [0, 1]).steps.getD 2
        (initStep [])).predecessors
      ((((traceLongestIncreasingSubsequence [0, 1]).steps.getD 2
        (initStep [])).sequence.getD 1 0 : Nat) : Int) = [0, 1] := by
  decide


end LisViz
